import Mathlib

/-!
# ab-test-mvp: sticky weighted variant assignment

A shallow embedding of the Go micro-service
(`micro-service/internal/assignments/service.go`,
`micro-service/internal/storage/store.go`,
`micro-service/internal/httpserver/server.go`) together with theorems about
the bucketing engine, the assignment store and the `/assign` handler.

Modelling conventions

* A Go `string` is a Lean `String` (Unicode text; its bytes are its UTF-8
  encoding, which is what the JSON decoder of the handler produces).
* A Go `int` is a 64-bit two's complement integer: an `Int` in
  `[-2^63, 2^63)`, every addition being reduced by `wrapInt`.
* A Go `uint64` is a `Nat` below `2^64`.
* A Go `(Result, error)` return is a pair `Result × Option error`.
* The SQLite database is an explicit state `Store` holding the rows of the two
  tables the code reads and writes; a statement is an atomic function on
  that state, and driver (I/O) failures are not part of the model.
* Concurrent requests are interleavings of the statements of `handleAssign`,
  those of `PersistAssignment` taken one by one.
-/

namespace Assignments

/-! ## Go primitives used by `service.go` -/

/-- Go `unicode.IsSpace`: the Latin-1 spaces `\t \n \v \f \r`, space, U+0085,
U+00A0, and the other code points with the `White_Space` property. -/
def isSpace (c : Char) : Bool :=
  let n := c.toNat
  (9 ≤ n && n ≤ 13) || n == 32 || n == 0x85 || n == 0xA0 || n == 0x1680 ||
  (0x2000 ≤ n && n ≤ 0x200A) || n == 0x2028 || n == 0x2029 || n == 0x202F ||
  n == 0x205F || n == 0x3000

/-- Go `strings.TrimSpace`: the string without its leading and trailing
white space. -/
def TrimSpace (s : String) : String :=
  ⟨((s.data.dropWhile isSpace).reverse.dropWhile isSpace).reverse⟩

/-- UTF-8 encoding of one code point, as a list of byte values. -/
def utf8EncodeChar (c : Char) : List Nat :=
  let n := c.toNat
  if n < 0x80 then [n]
  else if n < 0x800 then [0xC0 + n / 0x40, 0x80 + n % 0x40]
  else if n < 0x10000 then
    [0xE0 + n / 0x1000, 0x80 + (n / 0x40) % 0x40, 0x80 + n % 0x40]
  else
    [0xF0 + n / 0x40000, 0x80 + (n / 0x1000) % 0x40, 0x80 + (n / 0x40) % 0x40,
      0x80 + n % 0x40]

/-- Go `[]byte(input)`: the bytes of a string. -/
def bytes (input : String) : List Nat :=
  input.data.flatMap utf8EncodeChar

/-- FNV-1a 64-bit offset basis (`hash/fnv`, `offset64`). -/
def offset64 : Nat := 14695981039346656037

/-- FNV-1a 64-bit prime (`hash/fnv`, `prime64`). -/
def prime64 : Nat := 1099511628211

/-- Go `fnv.New64a()` followed by `Write` and `Sum64`: for every byte, xor
it into the hash, then multiply by the prime modulo `2^64`. -/
def fnv64a (data : List Nat) : Nat :=
  data.foldl (fun h b => ((h ^^^ b) * prime64) % 2 ^ 64) offset64

/-- Reduction of a mathematical integer to a Go `int` (64-bit two's
complement wrap-around). -/
def wrapInt (x : Int) : Int :=
  (x + 2 ^ 63) % 2 ^ 64 - 2 ^ 63

/-- Go `a + b` on `int`. -/
def addInt (a b : Int) : Int :=
  wrapInt (a + b)

/-- Go conversion `uint64(x)` of an `int`. -/
def toUint64 (x : Int) : Nat :=
  (x % 2 ^ 64).toNat

/-- Go conversion `int(n)` of a `uint64`. -/
def toInt (n : Nat) : Int :=
  wrapInt (n : Int)

/-- The values a Go `int` can hold. -/
def IsGoInt (x : Int) : Prop :=
  -(2 ^ 63) ≤ x ∧ x < 2 ^ 63

instance (x : Int) : Decidable (IsGoInt x) := by
  unfold IsGoInt; infer_instance

/-! ## `service.go` -/

/-- Source type `Variant`. -/
structure Variant where
  Key : String
  Weight : Int
deriving DecidableEq, Repr

/-- Source type `Result`. -/
structure Result where
  ExperimentID : String
  UserID : String
  VariantKey : String
deriving DecidableEq, Repr

/-- The zero value `Result{}`. -/
def Result.zero : Result := ⟨"", "", ""⟩

/-- The errors `Assign` returns: the three sentinels and the
`fmt.Errorf("assignments: failed to pick variant for %s", experimentID)`
value. -/
inductive AssignError where
  | ErrNoVariants
  | ErrInvalidMetadata
  | ErrNoWeightedSpace
  | failedToPick (experimentID : String)
deriving DecidableEq, Repr

/-- The method `Error()` of the errors of `Assign`. -/
def AssignError.Error : AssignError → String
  | .ErrNoVariants => "assignments: at least one variant is required"
  | .ErrInvalidMetadata => "assignments: experimentId and userId must be provided"
  | .ErrNoWeightedSpace => "assignments: total variant weight must be positive"
  | .failedToPick experimentID =>
      "assignments: failed to pick variant for " ++ experimentID

/-- Source function `stableHash`. -/
def stableHash (input : String) : Nat :=
  fnv64a (bytes input)

/-- One iteration of the first loop of `Assign`: an entry whose trimmed key
is empty or whose weight is not positive is skipped, any other is appended
(with its trimmed key) to `filtered` and its weight added to `totalWeight`. -/
def filterStep (acc : List Variant × Int) (variant : Variant) : List Variant × Int :=
  let key := TrimSpace variant.Key
  if key = "" ∨ variant.Weight ≤ 0 then acc
  else (acc.1 ++ [⟨key, variant.Weight⟩], addInt acc.2 variant.Weight)

/-- The first loop of `Assign`: the pair `(filtered, totalWeight)`. -/
def filterLoop (variants : List Variant) : List Variant × Int :=
  variants.foldl filterStep ([], 0)

/-- The second loop of `Assign`, started with the given value of `running`:
the first variant whose cumulative weight exceeds `pick`, or `none` when
the loop falls through. -/
def pickLoop (pick : Int) : Int → List Variant → Option Variant
  | _, [] => none
  | running, variant :: rest =>
    if pick < addInt running variant.Weight then some variant
    else pickLoop pick (addInt running variant.Weight) rest

/-- Source function `Service.Assign`. -/
def Assign (experimentID userID : String) (variants : List Variant) :
    Result × Option AssignError :=
  let experimentID := TrimSpace experimentID
  let userID := TrimSpace userID
  if experimentID = "" ∨ userID = "" then (Result.zero, some .ErrInvalidMetadata)
  else
    let filtered := (filterLoop variants).1
    let totalWeight := (filterLoop variants).2
    if filtered.length = 0 then (Result.zero, some .ErrNoVariants)
    else if totalWeight ≤ 0 then (Result.zero, some .ErrNoWeightedSpace)
    else
      let boundary := stableHash (experimentID ++ ":" ++ userID)
      let pick := toInt (boundary % toUint64 totalWeight)
      match pickLoop pick 0 filtered with
      | some variant => (⟨experimentID, userID, variant.Key⟩, none)
      | none => (Result.zero, some (.failedToPick experimentID))

end Assignments

namespace Storage

open Assignments

/-! ## `store.go` -/

/-- Modelled from the spec: the table `Variant(id, experimentId, key, weight,
createdAt)`, whose schema is not among the sources. `createdAt` is an
abstract timestamp. -/
structure VariantRow where
  id : String
  experimentId : String
  key : String
  weight : Int
  createdAt : Nat
deriving DecidableEq, Repr

/-- Modelled from the spec: the table `Assignment(userId, experimentId,
variantId)`, whose schema is not among the sources. -/
structure AssignmentRow where
  userId : String
  experimentId : String
  variantId : String
deriving DecidableEq, Repr

/-- The persisted state: the rows of the two tables, in storage order. -/
structure Store where
  Variant : List VariantRow
  Assignment : List AssignmentRow
deriving DecidableEq, Repr

/-- Modelled from the spec: the constraints of the schema, which is not
among the sources: `id` identifies a `Variant` row, and `Assignment` is
unique on `(experimentId, userId)` (the conflict target of the `INSERT` of
`PersistAssignment`). -/
def Store.Constraints (db : Store) : Prop :=
  (db.Variant.map (fun v => v.id)).Nodup ∧
  (db.Assignment.map (fun a => (a.experimentId, a.userId))).Nodup

instance (db : Store) : Decidable db.Constraints := by
  unfold Store.Constraints; infer_instance

/-- The sentinel errors of the store. -/
inductive StoreError where
  | ErrVariantNotFound
  | ErrAssignmentNotFound
deriving DecidableEq, Repr

/-- The method `Error()` of the errors of the store. -/
def StoreError.Error : StoreError → String
  | .ErrVariantNotFound => "storage: variant not found"
  | .ErrAssignmentNotFound => "storage: assignment exists but could not be fetched"

/-- The rows of the query of `GetAssignment` without its `LIMIT`:
`SELECT a.experimentId, a.userId, v.key FROM Assignment a JOIN Variant v
ON v.id = a.variantId WHERE a.experimentId = ? AND a.userId = ?`. -/
def assignmentRows (db : Store) (experimentID userID : String) : List Result :=
  (db.Assignment.filter
      (fun a => decide (a.experimentId = experimentID ∧ a.userId = userID))).flatMap
    (fun a => (db.Variant.filter (fun v => decide (v.id = a.variantId))).map
      (fun v => ⟨a.experimentId, a.userId, v.key⟩))

/-- Source function `Store.GetAssignment`: the first row of the query and
`true`, or the zero `Result` and `false` when there is none
(`sql.ErrNoRows`). The `error` result is left out: it is `nil` unless the
driver fails. -/
def GetAssignment (db : Store) (experimentID userID : String) : Result × Bool :=
  match (assignmentRows db experimentID userID).head? with
  | some result => (result, true)
  | none => (Result.zero, false)

/-- Source function `Store.ListVariants`: `SELECT key, weight FROM Variant
WHERE experimentId = ? ORDER BY createdAt ASC`. -/
def ListVariants (db : Store) (experimentID : String) : List Variant :=
  ((db.Variant.filter (fun v => decide (v.experimentId = experimentID))).insertionSort
      (fun a b => a.createdAt ≤ b.createdAt)).map
    (fun v => ⟨v.key, v.weight⟩)

/-- Source function `Store.lookupVariantID`: `SELECT id FROM Variant WHERE
experimentId = ? AND key = ? LIMIT 1`. -/
def lookupVariantID (db : Store) (experimentID variantKey : String) :
    String × Option StoreError :=
  match (db.Variant.filter
      (fun v => decide (v.experimentId = experimentID ∧ v.key = variantKey))).head? with
  | some v => (v.id, none)
  | none => ("", some .ErrVariantNotFound)

/-- The statement of `PersistAssignment`: `INSERT INTO Assignment (userId,
experimentId, variantId) VALUES (?, ?, ?) ON CONFLICT(experimentId, userId)
DO NOTHING`; the new state and the number of rows affected. -/
def insertAssignment (db : Store) (userID experimentID variantID : String) : Store × Nat :=
  if db.Assignment.any
      (fun a => decide (a.experimentId = experimentID ∧ a.userId = userID)) then (db, 0)
  else ({ db with Assignment := db.Assignment ++ [⟨userID, experimentID, variantID⟩] }, 1)

/-- Source function `Store.PersistAssignment`. -/
def PersistAssignment (db : Store) (experimentID userID variantKey : String) :
    Store × Result × Option StoreError :=
  match lookupVariantID db experimentID variantKey with
  | (_, some err) => (db, Result.zero, some err)
  | (variantID, none) =>
    let res := insertAssignment db userID experimentID variantID
    if res.2 = 0 then
      match GetAssignment res.1 experimentID userID with
      | (existing, true) => (res.1, existing, none)
      | (_, false) => (res.1, Result.zero, some .ErrAssignmentNotFound)
    else (res.1, ⟨experimentID, userID, variantKey⟩, none)

end Storage

namespace Httpserver

open Assignments Storage

/-! ## `server.go` -/

/-- Source type `assignRequest`. -/
structure assignRequest where
  ExperimentID : String
  UserID : String
deriving DecidableEq, Repr

/-- An incoming request: its method and the outcome of decoding its body
(`none` when `decoder.Decode` reports an error). -/
structure Request where
  method : String
  payload : Option assignRequest
deriving DecidableEq, Repr

/-- What is written to the `http.ResponseWriter`: the message given to
`http.Error`, or the value given to `writeJSON`. -/
inductive Body where
  | text (msg : String)
  | json (payload : Result)
deriving DecidableEq, Repr

/-- A response: status code and body. -/
structure Response where
  status : Nat
  body : Body
deriving DecidableEq, Repr

/-- The components `handleAssign` calls. -/
inductive Call where
  | GetAssignment
  | ListVariants
  | Assign
  | PersistAssignment
deriving DecidableEq, Repr

/-- The `switch` of `handleAssign` on the error of `Assign`. -/
def assignStatus : AssignError → Nat
  | .ErrInvalidMetadata => 400
  | .ErrNoVariants => 422
  | .ErrNoWeightedSpace => 422
  | .failedToPick _ => 500

/-- The `switch` of `handleAssign` on the error of `PersistAssignment`. -/
def persistStatus : StoreError → Nat
  | .ErrVariantNotFound => 422
  | .ErrAssignmentNotFound => 500

/-- Source function `Server.handleAssign`: the new state of the store, the
response, and the calls made, in order. -/
def handleAssign (db : Store) (r : Request) : Store × Response × List Call :=
  if r.method ≠ "POST" then (db, ⟨405, .text "Method Not Allowed"⟩, [])
  else
    match r.payload with
    | none => (db, ⟨400, .text "invalid request body"⟩, [])
    | some payload =>
      match GetAssignment db payload.ExperimentID payload.UserID with
      | (result, true) => (db, ⟨200, .json result⟩, [.GetAssignment])
      | (_, false) =>
        let variants := ListVariants db payload.ExperimentID
        if variants.length = 0 then
          (db, ⟨422, .text "experiment has no variants"⟩, [.GetAssignment, .ListVariants])
        else
          match Assign payload.ExperimentID payload.UserID variants with
          | (_, some err) =>
            (db, ⟨assignStatus err, .text err.Error⟩,
              [.GetAssignment, .ListVariants, .Assign])
          | (result, none) =>
            match PersistAssignment db payload.ExperimentID payload.UserID
                result.VariantKey with
            | (db1, _, some err) =>
              (db1, ⟨persistStatus err, .text err.Error⟩,
                [.GetAssignment, .ListVariants, .Assign, .PersistAssignment])
            | (db1, persisted, none) =>
              (db1, ⟨200, .json persisted⟩,
                [.GetAssignment, .ListVariants, .Assign, .PersistAssignment])

/-! ### Concurrent requests

`handleAssign` cut at its store statements: a request served by
`handleAssign` is at one of the program points below, and moves to the next
by one atomic statement on the shared store. -/

/-- The program points of `handleAssign` (those of `PersistAssignment`
included), with the local variables alive there. -/
inductive Pc where
  | getAssignment
  | listVariants
  | assign (variants : List Variant)
  | lookupVariantID (variantKey : String)
  | insert (variantKey variantID : String)
  | reread
  | done (resp : Response)
deriving DecidableEq, Repr

/-- One atomic step of a request with the given decoded body: the statement
of `handleAssign` (or of `PersistAssignment`) at the program point, on the
current state of the store. -/
def step (payload : assignRequest) (db : Store) : Pc → Store × Pc
  | .getAssignment =>
    match GetAssignment db payload.ExperimentID payload.UserID with
    | (result, true) => (db, .done ⟨200, .json result⟩)
    | (_, false) => (db, .listVariants)
  | .listVariants =>
    if (ListVariants db payload.ExperimentID).length = 0 then
      (db, .done ⟨422, .text "experiment has no variants"⟩)
    else (db, .assign (ListVariants db payload.ExperimentID))
  | .assign variants =>
    match Assign payload.ExperimentID payload.UserID variants with
    | (_, some err) => (db, .done ⟨assignStatus err, .text err.Error⟩)
    | (result, none) => (db, .lookupVariantID result.VariantKey)
  | .lookupVariantID variantKey =>
    match lookupVariantID db payload.ExperimentID variantKey with
    | (_, some err) => (db, .done ⟨persistStatus err, .text err.Error⟩)
    | (variantID, none) => (db, .insert variantKey variantID)
  | .insert variantKey variantID =>
    if (insertAssignment db payload.UserID payload.ExperimentID variantID).2 = 0 then
      ((insertAssignment db payload.UserID payload.ExperimentID variantID).1, .reread)
    else
      ((insertAssignment db payload.UserID payload.ExperimentID variantID).1,
        .done ⟨200, .json ⟨payload.ExperimentID, payload.UserID, variantKey⟩⟩)
  | .reread =>
    match GetAssignment db payload.ExperimentID payload.UserID with
    | (existing, true) => (db, .done ⟨200, .json existing⟩)
    | (_, false) =>
      (db, .done ⟨persistStatus .ErrAssignmentNotFound,
        .text StoreError.ErrAssignmentNotFound.Error⟩)
  | .done resp => (db, .done resp)

/-- The shared store and the program points of the requests in flight. -/
abbrev System := Store × List Pc

/-- Request `i` takes one step (nothing happens when there is no such
request). -/
def stepAt (payload : assignRequest) (st : System) (i : Nat) : System :=
  match st.2[i]? with
  | none => st
  | some pc => ((step payload st.1 pc).1, st.2.set i (step payload st.1 pc).2)

/-- An interleaving: the requests step in the order the schedule names
them. -/
def run (payload : assignRequest) (schedule : List Nat) (st : System) : System :=
  schedule.foldl (stepAt payload) st

/-- The rows of `Assignment` for a pair. -/
def rowsFor (db : Store) (experimentID userID : String) : List AssignmentRow :=
  db.Assignment.filter (fun a => decide (a.experimentId = experimentID ∧ a.userId = userID))

/-- The request has written its response. -/
def Pc.isDone : Pc → Bool
  | .done _ => true
  | _ => false

/-- The number of statements a request has behind it, at most. -/
def Pc.rank : Pc → Nat
  | .getAssignment => 0
  | .listVariants => 1
  | .assign _ => 2
  | .lookupVariantID _ => 3
  | .insert _ _ => 4
  | .reread => 5
  | .done _ => 6

/-- The store after the insertion of the assignment row of the pair of
`payload`, pointing at the variant `variantID`. -/
def inserted (payload : assignRequest) (db : Store) (variantID : String) : Store :=
  { db with Assignment :=
      db.Assignment ++ [⟨payload.UserID, payload.ExperimentID, variantID⟩] }

/-- What holds of a request in flight, in an interleaving of first requests
for the pair of `payload` started on `db`, when a request alone would store
the variant `variantID` of key `key`: its local variables hold what a
request alone computes, and it is past its `INSERT` only when the store
holds the row. -/
def PcOk (payload : assignRequest) (db : Store) (key variantID : String) (cur : Store) :
    Pc → Prop
  | .getAssignment => True
  | .listVariants => True
  | .assign variants => variants = ListVariants db payload.ExperimentID
  | .lookupVariantID variantKey => variantKey = key
  | .insert variantKey id => variantKey = key ∧ id = variantID
  | .reread => cur = inserted payload db variantID
  | .done resp =>
    resp = ⟨200, .json ⟨payload.ExperimentID, payload.UserID, key⟩⟩ ∧
      cur = inserted payload db variantID

/-- The invariant of the interleavings: the store is the initial one or the
initial one with the row of the pair, and every request is `PcOk`. -/
def Inv (payload : assignRequest) (db : Store) (key variantID : String) (st : System) :
    Prop :=
  (st.1 = db ∨ st.1 = inserted payload db variantID) ∧
    ∀ pc ∈ st.2, PcOk payload db key variantID st.1 pc

end Httpserver

/-! ## Vocabulary of the statements -/

namespace Assignments

/-- The test of the first loop of `Assign`, negated: the entry is kept. -/
def keeps (v : Variant) : Bool :=
  decide (¬ (TrimSpace v.Key = "" ∨ v.Weight ≤ 0))

/-- The order-preserved list of the entries whose trimmed key is non-empty
and whose weight is positive, keys trimmed. -/
def survivors (variants : List Variant) : List Variant :=
  (variants.filter keeps).map (fun v => ⟨TrimSpace v.Key, v.Weight⟩)

/-- The sum of the weights of a list, as a mathematical integer. -/
def weightSum (F : List Variant) : Int :=
  (F.map (fun v => v.Weight)).sum

/-- The sum of the weights of the first `i` entries. -/
def cumWeight (F : List Variant) (i : Nat) : Int :=
  weightSum (F.take i)

/-- The sum of the weights of a list added to `start` with Go `int`
additions, left to right. -/
def goSum (start : Int) (F : List Variant) : Int :=
  F.foldl (fun r v => addInt r v.Weight) start

/-- The value `pick` for trimmed identifiers `e`, `u` and total weight `T`:
the FNV-1a hash of the bytes of `e ++ ":" ++ u`, modulo `T`. -/
def pickOf (e u : String) (T : Int) : Int :=
  (stableHash (e ++ ":" ++ u) : Int) % T

/-- The number of values `p` of `[0, n)` for which the second loop of
`Assign`, run on `F` with `pick = p`, returns a variant with key `k`. -/
def bandCount (F : List Variant) (k : String) (n : Nat) : Nat :=
  ((List.range n).filter
    (fun (p : Nat) => decide ((pickLoop (p : Int) 0 F).map (fun v => v.Key) = some k))).length

end Assignments

/-! ## Properties of the Go integer primitives -/

namespace Assignments

theorem wrapInt_isGoInt (x : Int) : IsGoInt (wrapInt x) := by
  unfold IsGoInt wrapInt
  constructor <;> omega

theorem wrapInt_of_isGoInt {x : Int} (h : IsGoInt x) : wrapInt x = x := by
  unfold IsGoInt at h
  unfold wrapInt
  omega

theorem addInt_eq {a b : Int} (hlo : -(2 ^ 63) ≤ a + b) (hhi : a + b < 2 ^ 63) :
    addInt a b = a + b :=
  wrapInt_of_isGoInt ⟨hlo, hhi⟩

/-- For a positive Go `int` `t`, `int(boundary % uint64(t))` is the remainder
of the division of `boundary` by `t`. -/
theorem toInt_mod_toUint64 (boundary : Nat) {t : Int} (hpos : 0 < t) (ht : IsGoInt t) :
    toInt (boundary % toUint64 t) = (boundary : Int) % t := by
  unfold IsGoInt at ht
  have h1 : toUint64 t = t.toNat := by
    unfold toUint64
    congr 1
    omega
  have h2 : ((boundary % t.toNat : Nat) : Int) = (boundary : Int) % t := by
    rw [Int.natCast_mod, Int.toNat_of_nonneg hpos.le]
  have h3 : 0 ≤ (boundary : Int) % t := Int.emod_nonneg _ (by omega)
  have h4 : (boundary : Int) % t < t := Int.emod_lt_of_pos _ hpos
  rw [h1]
  unfold toInt
  rw [h2]
  exact wrapInt_of_isGoInt ⟨by omega, by omega⟩

end Assignments

/-! ## The two loops of `Assign` -/

namespace Assignments

theorem foldl_filterStep_fst (variants : List Variant) (acc : List Variant × Int) :
    (variants.foldl filterStep acc).1 = acc.1 ++ survivors variants := by
  induction variants generalizing acc with
  | nil => simp [survivors]
  | cons v vs ih =>
    rw [List.foldl_cons, ih]
    by_cases h : TrimSpace v.Key = "" ∨ v.Weight ≤ 0
    · simp [filterStep, survivors, keeps, h]
    · simp [filterStep, survivors, keeps, h]

theorem foldl_filterStep_snd (variants : List Variant) (acc : List Variant × Int) :
    (variants.foldl filterStep acc).2 = goSum acc.2 (survivors variants) := by
  induction variants generalizing acc with
  | nil => simp [survivors, goSum]
  | cons v vs ih =>
    rw [List.foldl_cons, ih]
    by_cases h : TrimSpace v.Key = "" ∨ v.Weight ≤ 0
    · simp [filterStep, survivors, keeps, h]
    · simp [filterStep, survivors, keeps, h, goSum]

theorem filterLoop_fst (variants : List Variant) :
    (filterLoop variants).1 = survivors variants := by
  simp [filterLoop, foldl_filterStep_fst]

theorem filterLoop_snd (variants : List Variant) :
    (filterLoop variants).2 = goSum 0 (survivors variants) := by
  simp [filterLoop, foldl_filterStep_snd]

theorem survivors_pos {variants : List Variant} {v : Variant}
    (hv : v ∈ survivors variants) : 0 < v.Weight := by
  simp only [survivors, List.mem_map, List.mem_filter, keeps, decide_eq_true_eq] at hv
  obtain ⟨a, ⟨_, ha⟩, rfl⟩ := hv
  simp only [not_or, not_le] at ha
  exact ha.2

theorem survivors_eq_nil_iff (variants : List Variant) :
    survivors variants = [] ↔ ∀ v ∈ variants, TrimSpace v.Key = "" ∨ v.Weight ≤ 0 := by
  simp only [survivors, keeps, List.map_eq_nil_iff, List.filter_eq_nil_iff,
    decide_eq_true_eq, not_not]

theorem goSum_isGoInt (start : Int) (F : List Variant) (h : IsGoInt start) :
    IsGoInt (goSum start F) := by
  induction F generalizing start with
  | nil => simpa [goSum] using h
  | cons v vs ih =>
    simp only [goSum, List.foldl_cons]
    exact ih _ (wrapInt_isGoInt _)

theorem weightSum_cons (v : Variant) (F : List Variant) :
    weightSum (v :: F) = v.Weight + weightSum F := by
  simp [weightSum]

theorem weightSum_nonneg {F : List Variant} (hpos : ∀ v ∈ F, 0 < v.Weight) :
    0 ≤ weightSum F := by
  induction F with
  | nil => simp [weightSum]
  | cons v vs ih =>
    rw [weightSum_cons]
    have h1 := hpos v (List.mem_cons_self _ _)
    have h2 := ih (fun x hx => hpos x (List.mem_cons_of_mem _ hx))
    omega

/-- Without overflow the Go sum is the mathematical sum. -/
theorem goSum_eq {F : List Variant} (hpos : ∀ v ∈ F, 0 < v.Weight) (start : Int)
    (hlo : 0 ≤ start) (hhi : start + weightSum F < 2 ^ 63) :
    goSum start F = start + weightSum F := by
  induction F generalizing start with
  | nil => simp [goSum, weightSum]
  | cons v vs ih =>
    have h1 := hpos v (List.mem_cons_self _ _)
    have hpos2 : ∀ x ∈ vs, 0 < x.Weight := fun x hx => hpos x (List.mem_cons_of_mem _ hx)
    have h2 := weightSum_nonneg hpos2
    rw [weightSum_cons] at hhi ⊢
    simp only [goSum, List.foldl_cons]
    rw [addInt_eq (by omega) (by omega)]
    have := ih hpos2 (start + v.Weight) (by omega) (by omega)
    simp only [goSum] at this
    rw [this]
    omega

/-- When the second loop falls through a non-empty list, `pick` is at least
the final value of `running`. -/
theorem pickLoop_none {pick : Int} {F : List Variant} (running : Int)
    (h : pickLoop pick running F = none) (hne : F ≠ []) : goSum running F ≤ pick := by
  induction F generalizing running with
  | nil => exact absurd rfl hne
  | cons v vs ih =>
    simp only [pickLoop] at h
    split at h
    · exact absurd h (by simp)
    · rename_i hlt
      simp only [goSum, List.foldl_cons]
      by_cases hvs : vs = []
      · subst hvs
        simpa using not_lt.mp hlt
      · exact ih _ h hvs

theorem pickLoop_some_mem {pick : Int} {F : List Variant} {v : Variant} (running : Int)
    (h : pickLoop pick running F = some v) : v ∈ F := by
  induction F generalizing running with
  | nil => simp [pickLoop] at h
  | cons w ws ih =>
    simp only [pickLoop] at h
    split at h
    · simp only [Option.some.injEq] at h
      simp [h]
    · exact List.mem_cons_of_mem _ (ih _ h)

/-- The body of `Assign`, its two loops replaced by what they compute. -/
theorem Assign_eq (experimentID userID : String) (variants : List Variant) :
    Assign experimentID userID variants =
      if TrimSpace experimentID = "" ∨ TrimSpace userID = "" then
        (Result.zero, some .ErrInvalidMetadata)
      else if survivors variants = [] then (Result.zero, some .ErrNoVariants)
      else if goSum 0 (survivors variants) ≤ 0 then (Result.zero, some .ErrNoWeightedSpace)
      else
        match pickLoop
            ((stableHash (TrimSpace experimentID ++ ":" ++ TrimSpace userID) : Int) %
              goSum 0 (survivors variants)) 0 (survivors variants) with
        | some variant => (⟨TrimSpace experimentID, TrimSpace userID, variant.Key⟩, none)
        | none => (Result.zero, some (.failedToPick (TrimSpace experimentID))) := by
  unfold Assign
  simp only [filterLoop_fst, filterLoop_snd, List.length_eq_zero]
  split_ifs with h1 h2 h3
  · rfl
  · rfl
  · rfl
  · rw [toInt_mod_toUint64 _ (not_le.mp h3) (goSum_isGoInt 0 _ (by decide))]

/-- The second loop of `Assign` finds a variant whenever it is reached. -/
theorem pickLoop_isSome (boundary : Nat) {F : List Variant} (hne : F ≠ [])
    (hpos : 0 < goSum 0 F) :
    ∃ v ∈ F, pickLoop ((boundary : Int) % goSum 0 F) 0 F = some v := by
  cases h : pickLoop ((boundary : Int) % goSum 0 F) 0 F with
  | none =>
    have h1 := pickLoop_none 0 h hne
    have h2 := Int.emod_lt_of_pos (boundary : Int) hpos
    omega
  | some v => exact ⟨v, pickLoop_some_mem 0 h, rfl⟩

theorem cumWeight_zero (F : List Variant) : cumWeight F 0 = 0 := by
  simp [cumWeight, weightSum]

theorem cumWeight_cons_succ (v : Variant) (F : List Variant) (i : Nat) :
    cumWeight (v :: F) (i + 1) = v.Weight + cumWeight F i := by
  simp [cumWeight, weightSum]

theorem cumWeight_nonneg {F : List Variant} (hpos : ∀ v ∈ F, 0 < v.Weight) (i : Nat) :
    0 ≤ cumWeight F i :=
  weightSum_nonneg (fun v hv => hpos v (List.mem_of_mem_take hv))

theorem cumWeight_mono {F : List Variant} (hpos : ∀ v ∈ F, 0 < v.Weight) {i j : Nat}
    (hij : i ≤ j) : cumWeight F i ≤ cumWeight F j := by
  induction F generalizing i j with
  | nil => simp [cumWeight]
  | cons v vs ih =>
    have hpos2 : ∀ x ∈ vs, 0 < x.Weight := fun x hx => hpos x (List.mem_cons_of_mem _ hx)
    cases i with
    | zero =>
      rw [cumWeight_zero]
      exact cumWeight_nonneg hpos j
    | succ i =>
      cases j with
      | zero => omega
      | succ j =>
        rw [cumWeight_cons_succ, cumWeight_cons_succ]
        have := ih hpos2 (Nat.le_of_succ_le_succ hij)
        omega

theorem cumWeight_le_weightSum {F : List Variant} (hpos : ∀ v ∈ F, 0 < v.Weight) (i : Nat) :
    cumWeight F i ≤ weightSum F := by
  have h := cumWeight_mono hpos (Nat.le_max_left i F.length)
  have h2 := cumWeight_mono hpos (Nat.le_max_right i F.length)
  have h3 : cumWeight F (max i F.length) = weightSum F := by
    unfold cumWeight
    rw [List.take_of_length_le (Nat.le_max_right i F.length)]
  omega

/-- At most one band contains a given value. -/
theorem band_unique {F : List Variant} (hpos : ∀ v ∈ F, 0 < v.Weight) {pick : Int}
    {i j : Nat} (hi1 : cumWeight F i ≤ pick) (hi2 : pick < cumWeight F (i + 1))
    (hj1 : cumWeight F j ≤ pick) (hj2 : pick < cumWeight F (j + 1)) : j = i := by
  rcases Nat.lt_trichotomy j i with h | h | h
  · have h3 : cumWeight F (j + 1) ≤ cumWeight F i := cumWeight_mono hpos h
    omega
  · exact h
  · have h3 : cumWeight F (i + 1) ≤ cumWeight F j := cumWeight_mono hpos h
    omega

/-- Without overflow the second loop returns the entry whose band contains
`pick`. -/
theorem pickLoop_spec {F : List Variant} (hpos : ∀ v ∈ F, 0 < v.Weight)
    (pick running : Int) (hlo : 0 ≤ running) (hhi : running + weightSum F < 2 ^ 63)
    (h1 : running ≤ pick) (h2 : pick < running + weightSum F) :
    ∃ i v, F[i]? = some v ∧ pickLoop pick running F = some v ∧
      running + cumWeight F i ≤ pick ∧ pick < running + cumWeight F (i + 1) := by
  induction F generalizing running with
  | nil =>
    simp only [weightSum, List.map_nil, List.sum_nil] at h2
    omega
  | cons v vs ih =>
    have hv := hpos v (List.mem_cons_self _ _)
    have hpos2 : ∀ x ∈ vs, 0 < x.Weight := fun x hx => hpos x (List.mem_cons_of_mem _ hx)
    have hnn := weightSum_nonneg hpos2
    rw [weightSum_cons] at hhi h2
    have hadd : addInt running v.Weight = running + v.Weight :=
      addInt_eq (by omega) (by omega)
    by_cases hlt : pick < running + v.Weight
    · refine ⟨0, v, by simp, ?_, ?_, ?_⟩
      · simp [pickLoop, hadd, hlt]
      · rw [cumWeight_zero]; omega
      · rw [cumWeight_cons_succ, cumWeight_zero]; omega
    · obtain ⟨i, x, hx, hp, hb1, hb2⟩ :=
        ih hpos2 (running + v.Weight) (by omega) (by omega) (by omega) (by omega)
      refine ⟨i + 1, x, by simpa using hx, ?_, ?_, ?_⟩
      · simp [pickLoop, hadd, hlt, hp]
      · rw [cumWeight_cons_succ]; omega
      · rw [cumWeight_cons_succ]; omega

/-- Without overflow, starting the second loop at `running` is starting it
at `0` with `pick` shifted. -/
theorem pickLoop_shift {F : List Variant} (hpos : ∀ v ∈ F, 0 < v.Weight)
    (pick running : Int) (hlo : 0 ≤ running) (hhi : running + weightSum F < 2 ^ 63) :
    pickLoop pick running F = pickLoop (pick - running) 0 F := by
  induction F generalizing running pick with
  | nil => simp [pickLoop]
  | cons v vs ih =>
    have hv := hpos v (List.mem_cons_self _ _)
    have hpos2 : ∀ x ∈ vs, 0 < x.Weight := fun x hx => hpos x (List.mem_cons_of_mem _ hx)
    have hnn := weightSum_nonneg hpos2
    rw [weightSum_cons] at hhi
    have hadd : addInt running v.Weight = running + v.Weight :=
      addInt_eq (by omega) (by omega)
    have hadd0 : addInt 0 v.Weight = v.Weight := by
      rw [addInt_eq (by omega) (by omega)]; omega
    simp only [pickLoop, hadd, hadd0]
    rw [ih hpos2 pick (running + v.Weight) (by omega) (by omega),
      ih hpos2 (pick - running) v.Weight (by omega) (by omega)]
    have e1 : pick - (running + v.Weight) = pick - running - v.Weight := by omega
    rw [e1]
    by_cases hlt : pick < running + v.Weight
    · have : pick - running < v.Weight := by omega
      simp [hlt, this]
    · have : ¬ pick - running < v.Weight := by omega
      simp [hlt, this]

theorem weightSum_keyFilter_cons (v : Variant) (F : List Variant) (k : String) :
    weightSum ((v :: F).filter (fun x => decide (x.Key = k))) =
      (if v.Key = k then v.Weight else 0) +
        weightSum (F.filter (fun x => decide (x.Key = k))) := by
  by_cases h : v.Key = k
  · simp [List.filter_cons, h, weightSum]
  · simp [List.filter_cons, h, weightSum]

/-- The bands of a key have, together, the total weight of its entries. -/
theorem bandCount_eq {F : List Variant} (hpos : ∀ v ∈ F, 0 < v.Weight)
    (hsum : weightSum F < 2 ^ 63) (k : String) :
    (bandCount F k (weightSum F).toNat : Int) =
      weightSum (F.filter (fun v => decide (v.Key = k))) := by
  induction F with
  | nil => simp [bandCount, weightSum]
  | cons v vs ih =>
    have hv := hpos v (List.mem_cons_self _ _)
    have hpos2 : ∀ x ∈ vs, 0 < x.Weight := fun x hx => hpos x (List.mem_cons_of_mem _ hx)
    have hnn := weightSum_nonneg hpos2
    rw [weightSum_cons] at hsum
    have ih2 := ih hpos2 (by omega)
    have hadd0 : addInt 0 v.Weight = v.Weight := by
      rw [addInt_eq (by omega) (by omega)]; omega
    have hsplit : (weightSum (v :: vs)).toNat = v.Weight.toNat + (weightSum vs).toNat := by
      rw [weightSum_cons]; omega
    rw [weightSum_keyFilter_cons, ← ih2, hsplit]
    unfold bandCount
    rw [List.range_add, List.filter_append, List.length_append, List.filter_map,
      List.length_map]
    have hfirst : (List.range v.Weight.toNat).filter
        (fun (p : Nat) => decide ((pickLoop (p : Int) 0 (v :: vs)).map (fun x => x.Key) = some k)) =
        (List.range v.Weight.toNat).filter (fun _ => decide (v.Key = k)) := by
      apply List.filter_congr
      intro p hp
      rw [List.mem_range] at hp
      have hlt : (p : Int) < v.Weight := by omega
      simp [pickLoop, hadd0, hlt]
    have hsecond : (List.range (weightSum vs).toNat).filter
        ((fun (p : Nat) => decide ((pickLoop (p : Int) 0 (v :: vs)).map (fun x => x.Key) = some k)) ∘
          (fun x => v.Weight.toNat + x)) =
        (List.range (weightSum vs).toNat).filter
          (fun (p : Nat) => decide ((pickLoop (p : Int) 0 vs).map (fun x => x.Key) = some k)) := by
      apply List.filter_congr
      intro q _
      have hge : ¬ ((v.Weight.toNat + q : Nat) : Int) < v.Weight := by omega
      have hsh := pickLoop_shift hpos2 ((v.Weight.toNat + q : Nat) : Int) v.Weight
        (by omega) (by omega)
      have e1 : ((v.Weight.toNat + q : Nat) : Int) - v.Weight = (q : Int) := by omega
      rw [e1] at hsh
      simp only [Function.comp, pickLoop, hadd0, hge, if_false, hsh]
    rw [hfirst, hsecond]
    by_cases hk : v.Key = k
    · simp only [hk, decide_True, List.filter_true, List.length_range, if_true]
      push_cast
      omega
    · simp [hk]

end Assignments

/-! ## The bucketing engine -/

namespace Assignments

/-- C1. Whenever `Assign` succeeds and the surviving weights sum without
overflow, its `Result` holds the trimmed identifiers and the key of the
entry `F[i]` of the filtered list `F` whose band contains
`pick = FNV-1a-64(e ++ ":" ++ u) mod T`: the cumulative weight before `i` is
at most `pick`, the one through `i` exceeds it, `i` is the only such index
and the first whose cumulative weight exceeds `pick`; and every input with
the same trimmed identifiers and the same filtered list gets the same
`Result`. -/
theorem assign_returns_band_of_pick (experimentId userId : String)
    (variants : List Variant) (r : Result)
    (hok : Assign experimentId userId variants = (r, none))
    (hsum : weightSum (survivors variants) < 2 ^ 63) :
    ∃ i v, (survivors variants)[i]? = some v ∧
      r = ⟨TrimSpace experimentId, TrimSpace userId, v.Key⟩ ∧
      cumWeight (survivors variants) i ≤
        pickOf (TrimSpace experimentId)
          (TrimSpace userId)
          (weightSum (survivors variants)) ∧
      pickOf (TrimSpace experimentId)
          (TrimSpace userId)
          (weightSum (survivors variants)) <
        cumWeight (survivors variants) (i + 1) ∧
      (∀ j, cumWeight (survivors variants) j ≤
          pickOf (TrimSpace experimentId)
            (TrimSpace userId)
            (weightSum (survivors variants)) →
        pickOf (TrimSpace experimentId)
            (TrimSpace userId)
            (weightSum (survivors variants)) <
          cumWeight (survivors variants) (j + 1) → j = i) ∧
      (∀ j, j < i → cumWeight (survivors variants) (j + 1) ≤
          pickOf (TrimSpace experimentId)
            (TrimSpace userId)
            (weightSum (survivors variants))) ∧
      (∀ experimentId2 userId2 variants2,
        TrimSpace experimentId2 = TrimSpace experimentId →
        TrimSpace userId2 = TrimSpace userId →
        survivors variants2 = survivors variants →
        Assign experimentId2 userId2 variants2 = (r, none)) := by
  have hpos : ∀ v ∈ survivors variants, 0 < v.Weight :=
    fun v hv => survivors_pos hv
  have hT : goSum 0 (survivors variants) =
      weightSum (survivors variants) := by
    rw [goSum_eq hpos 0 (le_refl _) (by omega)]; omega
  have hdep : ∀ experimentId2 userId2 variants2,
      TrimSpace experimentId2 = TrimSpace experimentId →
      TrimSpace userId2 = TrimSpace userId →
      survivors variants2 = survivors variants →
      Assign experimentId2 userId2 variants2 = (r, none) := by
    intro e2 u2 vs2 he hu hF
    rw [← hok, Assign_eq, Assign_eq, he, hu, hF]
  rw [Assign_eq] at hok
  split_ifs at hok with h1 h2 h3
  · simp at hok
  · simp at hok
  · simp at hok
  · rw [hT] at hok h3
    have hmod1 := Int.emod_nonneg
      (stableHash (TrimSpace experimentId ++ ":" ++
        TrimSpace userId) : Int) (show
        weightSum (survivors variants) ≠ 0 by omega)
    have hmod2 := Int.emod_lt_of_pos
      (stableHash (TrimSpace experimentId ++ ":" ++
        TrimSpace userId) : Int) (not_le.mp h3)
    obtain ⟨i, v, hv, hp, hb1, hb2⟩ := pickLoop_spec hpos _ 0 (le_refl _)
      (by omega) hmod1 (by omega)
    rw [hp] at hok
    simp only [Prod.mk.injEq, and_true] at hok
    simp only [zero_add] at hb1 hb2
    refine ⟨i, v, hv, hok.symm, hb1, hb2, ?_, ?_, hdep⟩
    · intro j hj1 hj2
      exact band_unique hpos hb1 hb2 hj1 hj2
    · intro j hj
      have h3 : cumWeight (survivors variants) (j + 1) ≤
          cumWeight (survivors variants) i :=
        cumWeight_mono hpos hj
      exact le_trans h3 hb1

/-- C1 on a list with two dropped entries and an untrimmed key: user `u1` of
`exp1` falls in the band of `A`. -/
theorem assign_returns_band_of_pick_witness :
    Assign " exp1" "u1 " [⟨"A", 50⟩, ⟨"", 7⟩, ⟨" B ", 50⟩, ⟨"C", 0⟩] =
        (⟨"exp1", "u1", "A"⟩, none) ∧
      ∃ (i : Nat) (v : Variant), (survivors [⟨"A", 50⟩, ⟨"", 7⟩, ⟨" B ", 50⟩, ⟨"C", 0⟩])[i]? = some v ∧
        (⟨"exp1", "u1", "A"⟩ : Result) = ⟨TrimSpace " exp1", TrimSpace "u1 ", v.Key⟩ :=
  ⟨by decide, by
    obtain ⟨i, v, h1, h2, _⟩ := assign_returns_band_of_pick " exp1" "u1 "
      [⟨"A", 50⟩, ⟨"", 7⟩, ⟨" B ", 50⟩, ⟨"C", 0⟩] ⟨"exp1", "u1", "A"⟩ (by decide) (by decide)
    exact ⟨i, v, h1, h2⟩⟩

/-- C2. `Assign` fails with `ErrInvalidMetadata` exactly when `experimentId`
or `userId` is empty after trimming, whatever the variant list; it then
returns the zero `Result` with that error, before any other check. -/
theorem assign_invalid_metadata_iff (experimentId userId : String)
    (variants : List Variant) :
    ((Assign experimentId userId variants).2 = some AssignError.ErrInvalidMetadata ↔
      (TrimSpace experimentId = "" ∨ TrimSpace userId = "")) ∧
    ((TrimSpace experimentId = "" ∨ TrimSpace userId = "") →
      Assign experimentId userId variants =
        (Result.zero, some AssignError.ErrInvalidMetadata)) := by
  rw [Assign_eq]
  by_cases h : TrimSpace experimentId = "" ∨ TrimSpace userId = ""
  · simp [h]
  · simp only [h, if_false, iff_false, false_implies, and_true]
    split_ifs
    · simp
    · simp
    · split <;> simp

/-- C3. With identifiers that are non-empty after trimming, `Assign` fails
with `ErrNoVariants` exactly when every entry has an empty trimmed key or a
weight `<= 0` (so for the empty list and for `[{a, 0}]`); and such entries
are dropped silently: removing them from the list does not change what
`Assign` returns. -/
theorem assign_no_variants_iff (experimentId userId : String) (variants : List Variant)
    (he : TrimSpace experimentId ≠ "") (hu : TrimSpace userId ≠ "") :
    ((Assign experimentId userId variants).2 = some AssignError.ErrNoVariants ↔
      ∀ v ∈ variants, TrimSpace v.Key = "" ∨ v.Weight ≤ 0) ∧
    Assign experimentId userId [] = (Result.zero, some AssignError.ErrNoVariants) ∧
    Assign experimentId userId [⟨"a", 0⟩] = (Result.zero, some AssignError.ErrNoVariants) ∧
    Assign experimentId userId variants =
      Assign experimentId userId
        (variants.filter (fun v => decide (¬ (TrimSpace v.Key = "" ∨ v.Weight ≤ 0)))) := by
  have hids : ¬ (TrimSpace experimentId = "" ∨ TrimSpace userId = "") := by
    simp [he, hu]
  refine ⟨?_, ?_, ?_, ?_⟩
  · rw [Assign_eq, ← survivors_eq_nil_iff]
    simp only [hids, if_false]
    by_cases h : survivors variants = []
    · simp [h]
    · simp only [h, if_false, iff_false]
      split_ifs
      · simp
      · split <;> simp
  · rw [Assign_eq]
    simp [hids, survivors]
  · rw [Assign_eq]
    simp [hids, survivors, keeps]
  · rw [Assign_eq, Assign_eq]
    have hs : survivors (variants.filter
        (fun v => decide (¬ (TrimSpace v.Key = "" ∨ v.Weight ≤ 0)))) = survivors variants := by
      simp only [survivors, List.filter_filter]
      congr 1
      apply List.filter_congr
      intro x _
      simp [keeps]
    rw [hs]

/-- C3 on a list whose two entries are both dropped. -/
theorem assign_no_variants_iff_witness :
    (TrimSpace " e " ≠ "" ∧ TrimSpace "u" ≠ "") ∧
      ((Assign " e " "u" [⟨"  ", 5⟩, ⟨"b", -1⟩]).2 = some AssignError.ErrNoVariants ↔
        ∀ v ∈ [(⟨"  ", 5⟩ : Variant), ⟨"b", -1⟩], TrimSpace v.Key = "" ∨ v.Weight ≤ 0) :=
  ⟨by decide,
    (assign_no_variants_iff " e " "u" [⟨"  ", 5⟩, ⟨"b", -1⟩] (by decide) (by decide)).1⟩

/-- C9. `Assign` never returns the internal "failed to pick variant" error,
for any identifiers and any weights (sums taken with Go `int` additions):
whenever the selection loop is reached, that is whenever the identifiers are
non-empty after trimming, an entry survives the filter and the computed
`totalWeight` is positive, the loop returns one of the filtered entries and
`Assign` succeeds with its key. -/
theorem assign_never_fails_to_pick (experimentId userId : String)
    (variants : List Variant) :
    (∀ msg, (Assign experimentId userId variants).2 ≠ some (AssignError.failedToPick msg)) ∧
    (TrimSpace experimentId ≠ "" → TrimSpace userId ≠ "" →
      (filterLoop variants).1 ≠ [] → 0 < (filterLoop variants).2 →
      ∃ v ∈ (filterLoop variants).1,
        Assign experimentId userId variants =
          (⟨TrimSpace experimentId, TrimSpace userId, v.Key⟩, none)) := by
  rw [filterLoop_fst, filterLoop_snd]
  constructor
  · intro msg
    rw [Assign_eq]
    split_ifs with h1 h2 h3
    · simp
    · simp
    · simp
    · obtain ⟨v, _, hv⟩ := pickLoop_isSome
        (stableHash (TrimSpace experimentId ++ ":" ++ TrimSpace userId)) h2 (not_le.mp h3)
      rw [hv]
      simp
  · intro he hu hne hpos
    obtain ⟨v, hmem, hv⟩ := pickLoop_isSome
      (stableHash (TrimSpace experimentId ++ ":" ++ TrimSpace userId)) hne hpos
    refine ⟨v, hmem, ?_⟩
    rw [Assign_eq]
    simp only [he, hu, or_self, if_false, hne, not_le.mpr hpos, hv]

/-- C10, as the code has it. When the weights of the surviving entries sum
to less than `2^63` (no Go `int` overflow), `Assign` never fails with
`ErrNoWeightedSpace`: as soon as one entry survives the filter, the computed
`totalWeight` is the sum of the surviving weights and is positive. -/
theorem assign_no_weighted_space_unreachable (experimentId userId : String)
    (variants : List Variant)
    (hsum : weightSum (survivors variants) < 2 ^ 63) :
    (Assign experimentId userId variants).2 ≠ some AssignError.ErrNoWeightedSpace ∧
    ((filterLoop variants).1 ≠ [] →
      (filterLoop variants).2 = weightSum (survivors variants) ∧
      0 < (filterLoop variants).2) := by
  have hpos : ∀ v ∈ survivors variants, 0 < v.Weight := fun v hv => survivors_pos hv
  have hT : goSum 0 (survivors variants) = weightSum (survivors variants) := by
    rw [goSum_eq hpos 0 (le_refl _) (by omega)]; omega
  have hgt : survivors variants ≠ [] → 0 < weightSum (survivors variants) := by
    intro hne
    cases hF : survivors variants with
    | nil => exact absurd hF hne
    | cons v vs =>
      rw [hF] at hpos
      have h1 := hpos v (List.mem_cons_self _ _)
      have h2 := weightSum_nonneg (fun x hx => hpos x (List.mem_cons_of_mem _ hx))
      rw [weightSum_cons]
      omega
  rw [filterLoop_fst, filterLoop_snd, hT]
  constructor
  · rw [Assign_eq, hT]
    split_ifs with h1 h2 h3
    · simp
    · simp
    · have := hgt h2
      omega
    · split <;> simp
  · intro hne
    exact ⟨rfl, hgt hne⟩

/-- C10 on surviving weights that sum to `2^63 - 1`, the largest Go `int`. -/
theorem assign_no_weighted_space_unreachable_witness :
    weightSum (survivors [⟨"a", 9223372036854775806⟩, ⟨"b", 1⟩, ⟨"", 5⟩]) < 2 ^ 63 ∧
      (Assign "e" "u" [⟨"a", 9223372036854775806⟩, ⟨"b", 1⟩, ⟨"", 5⟩]).2 ≠
        some AssignError.ErrNoWeightedSpace :=
  ⟨by decide,
    (assign_no_weighted_space_unreachable "e" "u"
      [⟨"a", 9223372036854775806⟩, ⟨"b", 1⟩, ⟨"", 5⟩] (by decide)).1⟩

/-- C10, as stated, fails: two entries with Go `int` weights `2^63 - 1` and
`1` both survive the filter, their Go sum wraps to `-2^63`, and `Assign`
fails with `ErrNoWeightedSpace`. -/
theorem assign_no_weighted_space_reached :
    (∀ v ∈ [(⟨"a", 9223372036854775807⟩ : Variant), ⟨"b", 1⟩], IsGoInt v.Weight) ∧
    (filterLoop [⟨"a", 9223372036854775807⟩, ⟨"b", 1⟩]).1 =
      [⟨"a", 9223372036854775807⟩, ⟨"b", 1⟩] ∧
    (filterLoop [⟨"a", 9223372036854775807⟩, ⟨"b", 1⟩]).2 = -9223372036854775808 ∧
    Assign "e" "u" [⟨"a", 9223372036854775807⟩, ⟨"b", 1⟩] =
      (Result.zero, some AssignError.ErrNoWeightedSpace) := by
  decide

/-- C7. For a list `F` of positive weights whose total `T` does not
overflow and every key `k`, the number of values `pick` of `[0, T)` for which
the selection loop of `Assign` returns a variant with key `k` is the sum of
the weights of the entries of `F` with key `k` (occurrences of a repeated
key are not merged); and entry `i` owns the contiguous band from the
cumulative weight before it to the cumulative weight through it: the loop
returns it for every `pick` there. -/
theorem bands_are_proportional (F : List Variant) (k : String)
    (hpos : ∀ v ∈ F, 0 < v.Weight) (hsum : weightSum F < 2 ^ 63) :
    (((List.range (weightSum F).toNat).filter
        (fun (p : Nat) =>
          decide ((pickLoop (p : Int) 0 F).map (fun v => v.Key) = some k))).length : Int) =
      weightSum (F.filter (fun v => decide (v.Key = k))) ∧
    (∀ i v, F[i]? = some v → ∀ pick : Int,
      cumWeight F i ≤ pick → pick < cumWeight F (i + 1) → pickLoop pick 0 F = some v) ∧
    (∀ i v, F[i]? = some v → cumWeight F (i + 1) - cumWeight F i = v.Weight) := by
  refine ⟨bandCount_eq hpos hsum k, ?_, ?_⟩
  · intro i v hv pick h1 h2
    have hnn := cumWeight_nonneg hpos i
    have hle := cumWeight_le_weightSum hpos (i + 1)
    obtain ⟨j, w, hw, hp, hb1, hb2⟩ := pickLoop_spec hpos pick 0 (le_refl _)
      (by omega) (by omega) (by omega)
    simp only [zero_add] at hb1 hb2
    have hji := band_unique hpos h1 h2 hb1 hb2
    subst hji
    rw [hp, ← hw, hv]
  · intro i v hv
    unfold cumWeight
    rw [List.take_succ, hv]
    simp [weightSum]

/-- C7 on a list where key `a` occurs twice: three of the six values of
`pick` select it. -/
theorem bands_are_proportional_witness :
    ((∀ v ∈ [(⟨"a", 2⟩ : Variant), ⟨"b", 3⟩, ⟨"a", 1⟩], 0 < v.Weight) ∧
      weightSum [⟨"a", 2⟩, ⟨"b", 3⟩, ⟨"a", 1⟩] < 2 ^ 63) ∧
    (((List.range (weightSum [⟨"a", 2⟩, ⟨"b", 3⟩, ⟨"a", 1⟩]).toNat).filter
        (fun (p : Nat) =>
          decide ((pickLoop (p : Int) 0 [⟨"a", 2⟩, ⟨"b", 3⟩, ⟨"a", 1⟩]).map
            (fun v => v.Key) = some "a"))).length : Int) =
      weightSum ([(⟨"a", 2⟩ : Variant), ⟨"b", 3⟩, ⟨"a", 1⟩].filter
        (fun v => decide (v.Key = "a"))) :=
  ⟨by decide,
    (bands_are_proportional [⟨"a", 2⟩, ⟨"b", 3⟩, ⟨"a", 1⟩] "a" (by decide) (by decide)).1⟩

end Assignments

/-! ## The assignment store -/

namespace Storage

open Assignments

/-- In a list without two entries of the same key, the entries with the key
of a member are that member alone. -/
theorem filter_key_eq_singleton {α β : Type} [DecidableEq β] (f : α → β) {l : List α}
    (hnd : (l.map f).Nodup) {a : α} (ha : a ∈ l) :
    l.filter (fun x => decide (f x = f a)) = [a] := by
  induction l with
  | nil => simp at ha
  | cons x xs ih =>
    rw [List.map_cons, List.nodup_cons] at hnd
    rcases List.mem_cons.mp ha with rfl | hmem
    · have hrest : xs.filter (fun x => decide (f x = f a)) = [] := by
        rw [List.filter_eq_nil_iff]
        intro y hy hfy
        simp only [decide_eq_true_eq] at hfy
        exact hnd.1 (hfy ▸ List.mem_map_of_mem f hy)
      simp [List.filter_cons, hrest]
    · have hne : f x ≠ f a := by
        intro h
        exact hnd.1 (h ▸ List.mem_map_of_mem f hmem)
      simp [List.filter_cons, hne, ih hnd.2 hmem]

/-- The variant rows with the id of a stored variant are that row alone. -/
theorem variant_filter_id {db : Store} (hc : db.Constraints) {v : VariantRow}
    (hv : v ∈ db.Variant) :
    db.Variant.filter (fun x => decide (x.id = v.id)) = [v] :=
  filter_key_eq_singleton (fun x => x.id) hc.1 hv

/-- The assignment rows of the pair of a stored assignment are that row
alone. -/
theorem assignment_filter_pair {db : Store} (hc : db.Constraints) {a : AssignmentRow}
    (ha : a ∈ db.Assignment) :
    db.Assignment.filter
      (fun x => decide (x.experimentId = a.experimentId ∧ x.userId = a.userId)) = [a] := by
  have h := filter_key_eq_singleton (fun x : AssignmentRow => (x.experimentId, x.userId))
    hc.2 ha
  simpa only [Prod.mk.injEq] using h

/-- `GetAssignment` finds the assignment of a pair that has one pointing at
a stored variant. -/
theorem GetAssignment_of_stored {db : Store} (hc : db.Constraints)
    {experimentID userID k : String}
    (hex : ∃ a ∈ db.Assignment, a.experimentId = experimentID ∧ a.userId = userID ∧
      ∃ v ∈ db.Variant, v.id = a.variantId ∧ v.key = k) :
    GetAssignment db experimentID userID = (⟨experimentID, userID, k⟩, true) := by
  obtain ⟨a, ha, rfl, rfl, v, hv, hid, rfl⟩ := hex
  unfold GetAssignment assignmentRows
  rw [assignment_filter_pair hc ha, List.flatMap_singleton, ← hid, variant_filter_id hc hv]
  rfl

/-- `GetAssignment` finds nothing for a pair without assignment row. -/
theorem GetAssignment_of_absent {db : Store} {experimentID userID : String}
    (habs : ∀ a ∈ db.Assignment, ¬ (a.experimentId = experimentID ∧ a.userId = userID)) :
    GetAssignment db experimentID userID = (Result.zero, false) := by
  have h : db.Assignment.filter
      (fun a => decide (a.experimentId = experimentID ∧ a.userId = userID)) = [] := by
    rw [List.filter_eq_nil_iff]
    intro a ha
    simpa using habs a ha
  unfold GetAssignment assignmentRows
  rw [h]
  rfl

theorem lookupVariantID_of_stored {db : Store} {experimentID variantKey : String}
    (hres : ∃ v ∈ db.Variant, v.experimentId = experimentID ∧ v.key = variantKey) :
    ∃ v ∈ db.Variant, v.experimentId = experimentID ∧ v.key = variantKey ∧
      lookupVariantID db experimentID variantKey = (v.id, none) := by
  obtain ⟨w, hw, hw1, hw2⟩ := hres
  unfold lookupVariantID
  cases hf : (db.Variant.filter
      (fun v => decide (v.experimentId = experimentID ∧ v.key = variantKey))).head? with
  | none =>
    rw [List.head?_eq_none_iff, List.filter_eq_nil_iff] at hf
    exact absurd (by simp [hw1, hw2]) (hf w hw)
  | some v =>
    have hmem := List.mem_of_mem_head? hf
    rw [List.mem_filter] at hmem
    simp only [decide_eq_true_eq] at hmem
    exact ⟨v, hmem.1, hmem.2.1, hmem.2.2, rfl⟩

theorem lookupVariantID_found {db : Store} {experimentID variantKey variantID : String}
    (h : lookupVariantID db experimentID variantKey = (variantID, none)) :
    ∃ v ∈ db.Variant, v.experimentId = experimentID ∧ v.key = variantKey ∧
      v.id = variantID := by
  unfold lookupVariantID at h
  cases hf : (db.Variant.filter
      (fun v => decide (v.experimentId = experimentID ∧ v.key = variantKey))).head? with
  | none => rw [hf] at h; simp at h
  | some v =>
    rw [hf] at h
    simp only [Prod.mk.injEq, and_true] at h
    have hmem := List.mem_of_mem_head? hf
    rw [List.mem_filter] at hmem
    simp only [decide_eq_true_eq] at hmem
    exact ⟨v, hmem.1, hmem.2.1, hmem.2.2, h⟩

theorem insertAssignment_conflict {db : Store} {userID experimentID : String}
    (variantID : String)
    (hex : ∃ a ∈ db.Assignment, a.experimentId = experimentID ∧ a.userId = userID) :
    insertAssignment db userID experimentID variantID = (db, 0) := by
  obtain ⟨a, ha, h1, h2⟩ := hex
  unfold insertAssignment
  rw [if_pos]
  rw [List.any_eq_true]
  exact ⟨a, ha, by simp [h1, h2]⟩

theorem insertAssignment_fresh {db : Store} {userID experimentID : String}
    (variantID : String)
    (habs : ∀ a ∈ db.Assignment, ¬ (a.experimentId = experimentID ∧ a.userId = userID)) :
    insertAssignment db userID experimentID variantID =
      ({ db with Assignment := db.Assignment ++ [⟨userID, experimentID, variantID⟩] }, 1) := by
  unfold insertAssignment
  rw [if_neg]
  rw [List.any_eq_true]
  rintro ⟨a, ha, hp⟩
  exact habs a ha (by simpa using hp)

/-- After the insertion of a row for a pair that had none, pointing at a
stored variant, `GetAssignment` returns the key of that variant. -/
theorem GetAssignment_after_insert {db : Store} (hc : db.Constraints)
    {userID experimentID : String}
    (habs : ∀ a ∈ db.Assignment, ¬ (a.experimentId = experimentID ∧ a.userId = userID))
    {v : VariantRow} (hv : v ∈ db.Variant) :
    GetAssignment { db with Assignment := db.Assignment ++ [⟨userID, experimentID, v.id⟩] }
      experimentID userID = (⟨experimentID, userID, v.key⟩, true) := by
  have h : db.Assignment.filter
      (fun a => decide (a.experimentId = experimentID ∧ a.userId = userID)) = [] := by
    rw [List.filter_eq_nil_iff]
    intro a ha
    simpa using habs a ha
  unfold GetAssignment assignmentRows
  simp only [List.filter_append, h, List.nil_append]
  simp [List.filter_cons, variant_filter_id hc hv]

/-- C4. In a store state (satisfying the constraints of the schema) where
the pair already has an assignment pointing at a stored variant of key `k`,
`PersistAssignment` with a proposed key that resolves to a variant of the
experiment returns the `Result` with the stored key `k`, not the proposed
one, without error, and leaves the store as it was. -/
theorem persist_returns_stored_assignment (db : Store)
    (experimentId userId k proposed : String) (hc : db.Constraints)
    (hex : ∃ a ∈ db.Assignment, a.experimentId = experimentId ∧ a.userId = userId ∧
      ∃ v ∈ db.Variant, v.id = a.variantId ∧ v.key = k)
    (hres : ∃ v ∈ db.Variant, v.experimentId = experimentId ∧ v.key = proposed) :
    PersistAssignment db experimentId userId proposed =
      (db, ⟨experimentId, userId, k⟩, none) := by
  obtain ⟨v, _, _, _, hlook⟩ := lookupVariantID_of_stored hres
  have hconf : ∃ a ∈ db.Assignment, a.experimentId = experimentId ∧ a.userId = userId := by
    obtain ⟨a, ha, h1, h2, _⟩ := hex
    exact ⟨a, ha, h1, h2⟩
  unfold PersistAssignment
  rw [hlook]
  simp only [insertAssignment_conflict v.id hconf, if_true, GetAssignment_of_stored hc hex]

/-- C4 on a store where `u1` holds `A` and `B` is proposed. -/
theorem persist_returns_stored_assignment_witness :
    PersistAssignment
        ⟨[⟨"v1", "exp1", "A", 50, 1⟩, ⟨"v2", "exp1", "B", 50, 2⟩], [⟨"u1", "exp1", "v1"⟩]⟩
        "exp1" "u1" "B" =
      (⟨[⟨"v1", "exp1", "A", 50, 1⟩, ⟨"v2", "exp1", "B", 50, 2⟩], [⟨"u1", "exp1", "v1"⟩]⟩,
        ⟨"exp1", "u1", "A"⟩, none) :=
  persist_returns_stored_assignment
    ⟨[⟨"v1", "exp1", "A", 50, 1⟩, ⟨"v2", "exp1", "B", 50, 2⟩], [⟨"u1", "exp1", "v1"⟩]⟩
    "exp1" "u1" "A" "B" (by decide)
    ⟨⟨"u1", "exp1", "v1"⟩, by decide, rfl, rfl, ⟨"v1", "exp1", "A", 50, 1⟩, by decide, rfl, rfl⟩
    ⟨⟨"v2", "exp1", "B", 50, 2⟩, by decide, rfl, rfl⟩

/-- What `PersistAssignment` returns without error is what `GetAssignment`
finds afterwards. -/
theorem PersistAssignment_durable {db db1 : Store} (hc : db.Constraints)
    {experimentID userID variantKey : String} {persisted : Result}
    (h : PersistAssignment db experimentID userID variantKey = (db1, persisted, none)) :
    GetAssignment db1 experimentID userID = (persisted, true) := by
  unfold PersistAssignment at h
  cases hl : lookupVariantID db experimentID variantKey with
  | mk variantID err =>
    cases err with
    | some e => rw [hl] at h; simp at h
    | none =>
      obtain ⟨v, hv, _, hkey, hid⟩ := lookupVariantID_found hl
      rw [hl] at h
      simp only at h
      by_cases hconf : ∃ a ∈ db.Assignment, a.experimentId = experimentID ∧ a.userId = userID
      · rw [insertAssignment_conflict variantID hconf] at h
        simp only [if_true] at h
        cases hg : GetAssignment db experimentID userID with
        | mk existing found =>
          cases found with
          | false => rw [hg] at h; simp at h
          | true =>
            rw [hg] at h
            simp only [Prod.mk.injEq, and_true] at h
            rw [← h.1, ← h.2, hg]
      · have habs : ∀ a ∈ db.Assignment,
            ¬ (a.experimentId = experimentID ∧ a.userId = userID) :=
          fun a ha hp => hconf ⟨a, ha, hp⟩
        rw [insertAssignment_fresh variantID habs] at h
        simp only [one_ne_zero, if_false, Prod.mk.injEq, and_true] at h
        rw [← h.1, ← h.2, ← hid, ← hkey]
        exact GetAssignment_after_insert hc habs hv

end Storage

/-! ## The `/assign` handler -/

namespace Httpserver

open Assignments Storage

theorem assignStatus_ne_200 (err : AssignError) : assignStatus err ≠ 200 := by
  cases err <;> simp [assignStatus]

theorem persistStatus_ne_200 (err : StoreError) : persistStatus err ≠ 200 := by
  cases err <;> simp [persistStatus]

/-- The fast path of `handleAssign`. -/
theorem handleAssign_found {db : Store} {payload : assignRequest} {result : Result}
    (h : GetAssignment db payload.ExperimentID payload.UserID = (result, true)) :
    handleAssign db ⟨"POST", some payload⟩ = (db, ⟨200, .json result⟩, [.GetAssignment]) := by
  simp [handleAssign, h]

/-- C6. In a store state (satisfying the constraints of the schema), when
`handleAssign` answers a well-formed `POST /assign` with 200 and body `b`, a
second call with the same request on the resulting state answers 200 with
the same body `b`, calls `GetAssignment` only (neither `Assign` nor
`PersistAssignment`), and leaves the store unchanged. -/
theorem handleAssign_second_call (db : Store) (payload : assignRequest) (b : Body)
    (hc : db.Constraints)
    (h200 : (handleAssign db ⟨"POST", some payload⟩).2.1 = ⟨200, b⟩) :
    handleAssign (handleAssign db ⟨"POST", some payload⟩).1 ⟨"POST", some payload⟩ =
      ((handleAssign db ⟨"POST", some payload⟩).1, ⟨200, b⟩, [Call.GetAssignment]) := by
  cases hg : GetAssignment db payload.ExperimentID payload.UserID with
  | mk result found =>
    cases found with
    | true =>
      rw [handleAssign_found hg] at h200 ⊢
      simp only [Response.mk.injEq, true_and] at h200
      rw [← h200]
      exact handleAssign_found hg
    | false =>
      have hne : ¬ ("POST" ≠ "POST") := by simp
      unfold handleAssign at h200
      simp only [hne, if_false, hg] at h200
      by_cases hv : (ListVariants db payload.ExperimentID).length = 0
      · simp [hv] at h200
      · simp only [hv, if_false] at h200
        cases ha : Assign payload.ExperimentID payload.UserID
            (ListVariants db payload.ExperimentID) with
        | mk result2 err =>
          cases err with
          | some e =>
            rw [ha] at h200
            simp only [Response.mk.injEq] at h200
            exact absurd h200.1 (assignStatus_ne_200 e)
          | none =>
            rw [ha] at h200
            simp only at h200
            cases hp : PersistAssignment db payload.ExperimentID payload.UserID
                result2.VariantKey with
            | mk db1 rest =>
              cases rest with
              | mk persisted perr =>
                cases perr with
                | some e =>
                  rw [hp] at h200
                  simp only [Response.mk.injEq] at h200
                  exact absurd h200.1 (persistStatus_ne_200 e)
                | none =>
                  rw [hp] at h200
                  simp only [Response.mk.injEq, true_and] at h200
                  have hfirst : handleAssign db ⟨"POST", some payload⟩ =
                      (db1, ⟨200, .json persisted⟩,
                        [.GetAssignment, .ListVariants, .Assign, .PersistAssignment]) := by
                    unfold handleAssign
                    simp only [hne, if_false, hg, hv, ha, hp]
                  rw [hfirst, ← h200]
                  exact handleAssign_found (PersistAssignment_durable hc hp)

/-- C6 on a first call that creates the assignment of `u1`. -/
theorem handleAssign_second_call_witness :
    (handleAssign ⟨[⟨"v1", "exp1", "A", 50, 1⟩, ⟨"v2", "exp1", "B", 50, 2⟩], []⟩
        ⟨"POST", some ⟨"exp1", "u1"⟩⟩).2.1 = ⟨200, .json ⟨"exp1", "u1", "A"⟩⟩ ∧
    handleAssign
        (handleAssign ⟨[⟨"v1", "exp1", "A", 50, 1⟩, ⟨"v2", "exp1", "B", 50, 2⟩], []⟩
          ⟨"POST", some ⟨"exp1", "u1"⟩⟩).1 ⟨"POST", some ⟨"exp1", "u1"⟩⟩ =
      ((handleAssign ⟨[⟨"v1", "exp1", "A", 50, 1⟩, ⟨"v2", "exp1", "B", 50, 2⟩], []⟩
          ⟨"POST", some ⟨"exp1", "u1"⟩⟩).1, ⟨200, .json ⟨"exp1", "u1", "A"⟩⟩,
        [Call.GetAssignment]) :=
  ⟨by decide,
    handleAssign_second_call
      ⟨[⟨"v1", "exp1", "A", 50, 1⟩, ⟨"v2", "exp1", "B", 50, 2⟩], []⟩ ⟨"exp1", "u1"⟩
      (.json ⟨"exp1", "u1", "A"⟩) (by decide) (by decide)⟩

/-- C8, as the code has it. For a well-formed `POST /assign` whose
`experimentId` or `userId` is empty after trimming, `handleAssign` leaves
the store unchanged and answers 400 when `GetAssignment` finds no assignment
for the identifiers as sent and `ListVariants` returns at least one variant
for the experiment id as sent; it answers 200 when an assignment is found,
and 422 when none is and the experiment has no variant. -/
theorem handleAssign_blank_identifier (db : Store) (payload : assignRequest)
    (hblank : TrimSpace payload.ExperimentID = "" ∨ TrimSpace payload.UserID = "") :
    (handleAssign db ⟨"POST", some payload⟩).1 = db ∧
    (handleAssign db ⟨"POST", some payload⟩).2.1.status =
      if (GetAssignment db payload.ExperimentID payload.UserID).2 = true then 200
      else if ListVariants db payload.ExperimentID = [] then 422 else 400 := by
  cases hg : GetAssignment db payload.ExperimentID payload.UserID with
  | mk result found =>
    cases found with
    | true => simp [handleAssign_found hg]
    | false =>
      have hne : ¬ ("POST" ≠ "POST") := by simp
      unfold handleAssign
      simp only [hne, if_false, hg, List.length_eq_zero]
      by_cases hv : ListVariants db payload.ExperimentID = []
      · simp [hv]
      · have ha : Assign payload.ExperimentID payload.UserID
            (ListVariants db payload.ExperimentID) =
            (Result.zero, some AssignError.ErrInvalidMetadata) := by
          rw [Assign_eq, if_pos hblank]
        simp [hv, ha, assignStatus]

/-- C8 on a blank `userId` for an experiment that has a variant. -/
theorem handleAssign_blank_identifier_witness :
    (TrimSpace "exp1" = "" ∨ TrimSpace " \t" = "") ∧
    (handleAssign ⟨[⟨"v1", "exp1", "A", 50, 1⟩], []⟩ ⟨"POST", some ⟨"exp1", " \t"⟩⟩).2.1.status =
      400 :=
  ⟨by decide,
    (handleAssign_blank_identifier ⟨[⟨"v1", "exp1", "A", 50, 1⟩], []⟩ ⟨"exp1", " \t"⟩
      (by decide)).2⟩

/-- C8, as stated, fails: on the empty store, the well-formed request with
an empty `experimentId` is answered 422, not 400 (`ListVariants` returns no
variant and `handleAssign` returns before it calls `Assign`). -/
theorem handleAssign_blank_identifier_422 :
    (TrimSpace "" = "" ∨ TrimSpace "u1" = "") ∧
    handleAssign ⟨[], []⟩ ⟨"POST", some ⟨"", "u1"⟩⟩ =
      (⟨[], []⟩, ⟨422, .text "experiment has no variants"⟩,
        [Call.GetAssignment, Call.ListVariants]) := by
  decide

end Httpserver

/-! ## Concurrent first requests -/

namespace Httpserver

open Assignments Storage

/-- A request running alone goes through `handleAssign`: six steps of the
machine, from the first program point, give its store and its response. -/
theorem run_alone_eq_handleAssign (db : Store) (payload : assignRequest) :
    run payload [0, 0, 0, 0, 0, 0] (db, [Pc.getAssignment]) =
      ((handleAssign db ⟨"POST", some payload⟩).1,
        [Pc.done (handleAssign db ⟨"POST", some payload⟩).2.1]) := by
  have hne : ¬ ("POST" ≠ "POST") := by simp
  unfold handleAssign
  simp only [hne, if_false]
  cases hg : GetAssignment db payload.ExperimentID payload.UserID with
  | mk result found =>
    cases found with
    | true => simp [run, stepAt, step, hg]
    | false =>
      by_cases hv : (ListVariants db payload.ExperimentID).length = 0
      · simp [run, stepAt, step, hg, hv]
      · cases ha : Assign payload.ExperimentID payload.UserID
            (ListVariants db payload.ExperimentID) with
        | mk result2 err =>
          cases err with
          | some e => simp [run, stepAt, step, hg, hv, ha]
          | none =>
            unfold PersistAssignment
            cases hl : lookupVariantID db payload.ExperimentID result2.VariantKey with
            | mk variantID lerr =>
              cases lerr with
              | some e => simp [run, stepAt, step, hg, hv, ha, hl]
              | none =>
                by_cases hi : (insertAssignment db payload.UserID payload.ExperimentID
                    variantID).2 = 0
                · cases hg2 : GetAssignment (insertAssignment db payload.UserID
                      payload.ExperimentID variantID).1 payload.ExperimentID
                      payload.UserID with
                  | mk existing found2 =>
                    cases found2 <;>
                      simp [run, stepAt, step, hg, hv, ha, hl, hi, hg2, persistStatus]
                · simp [run, stepAt, step, hg, hv, ha, hl, hi]

theorem rowsFor_eq_nil_iff (db : Store) (experimentID userID : String) :
    rowsFor db experimentID userID = [] ↔
      ∀ a ∈ db.Assignment, ¬ (a.experimentId = experimentID ∧ a.userId = userID) := by
  unfold rowsFor
  rw [List.filter_eq_nil_iff]
  simp only [decide_eq_true_eq]

theorem rowsFor_inserted {db : Store} {payload : assignRequest} (variantID : String)
    (hfirst : rowsFor db payload.ExperimentID payload.UserID = []) :
    rowsFor (inserted payload db variantID) payload.ExperimentID payload.UserID =
      [⟨payload.UserID, payload.ExperimentID, variantID⟩] := by
  unfold rowsFor at hfirst ⊢
  simp only [inserted, List.filter_append, hfirst, List.nil_append]
  simp [List.filter_cons]

/-- `Assign` does not succeed on the empty list. -/
theorem Assign_nil_ne_ok (experimentID userID : String) (r : Result) :
    Assign experimentID userID [] ≠ (r, none) := by
  rw [Assign_eq]
  split_ifs with h1 h2
  · simp
  · simp
  · exact absurd rfl h2
  · exact absurd rfl h2

/-- What a request alone does when it is answered 200 on a store without
assignment for its pair: `Assign` succeeds on the listed variants and its
key resolves to a stored variant. -/
theorem solo_ok {db : Store} {payload : assignRequest}
    (hfirst : rowsFor db payload.ExperimentID payload.UserID = [])
    (hsolo : (handleAssign db ⟨"POST", some payload⟩).2.1.status = 200) :
    ∃ r v, Assign payload.ExperimentID payload.UserID
          (ListVariants db payload.ExperimentID) = (r, none) ∧
      v ∈ db.Variant ∧ v.key = r.VariantKey ∧
      lookupVariantID db payload.ExperimentID r.VariantKey = (v.id, none) := by
  have hne : ¬ ("POST" ≠ "POST") := by simp
  have hg := GetAssignment_of_absent ((rowsFor_eq_nil_iff _ _ _).mp hfirst)
  unfold handleAssign at hsolo
  simp only [hne, if_false, hg] at hsolo
  by_cases hv : (ListVariants db payload.ExperimentID).length = 0
  · simp [hv] at hsolo
  · simp only [hv, if_false] at hsolo
    cases ha : Assign payload.ExperimentID payload.UserID
        (ListVariants db payload.ExperimentID) with
    | mk r err =>
      cases err with
      | some e =>
        rw [ha] at hsolo
        exact absurd hsolo (assignStatus_ne_200 e)
      | none =>
        rw [ha] at hsolo
        simp only at hsolo
        cases hl : lookupVariantID db payload.ExperimentID r.VariantKey with
        | mk variantID lerr =>
          cases lerr with
          | some e =>
            unfold PersistAssignment at hsolo
            rw [hl] at hsolo
            exact absurd hsolo (persistStatus_ne_200 e)
          | none =>
            obtain ⟨v, hv1, _, hv3, hv4⟩ := lookupVariantID_found hl
            exact ⟨r, v, rfl, hv1, hv3, by rw [hv4, hl]⟩

/-- One step of a request keeps the invariant of the stepping request, and
never removes the row once it is stored. -/
theorem step_ok {db : Store} {payload : assignRequest} {r : Result} {v : VariantRow}
    (hc : db.Constraints)
    (hfirst : rowsFor db payload.ExperimentID payload.UserID = [])
    (hassign : Assign payload.ExperimentID payload.UserID
      (ListVariants db payload.ExperimentID) = (r, none))
    (hv : v ∈ db.Variant) (hkey : v.key = r.VariantKey)
    (hlook : lookupVariantID db payload.ExperimentID r.VariantKey = (v.id, none))
    {cur : Store} (hcur : cur = db ∨ cur = inserted payload db v.id) {pc : Pc}
    (hok : PcOk payload db r.VariantKey v.id cur pc) :
    ((step payload cur pc).1 = db ∨ (step payload cur pc).1 = inserted payload db v.id) ∧
    (cur = inserted payload db v.id → (step payload cur pc).1 = inserted payload db v.id) ∧
    PcOk payload db r.VariantKey v.id (step payload cur pc).1 (step payload cur pc).2 := by
  have habs := (rowsFor_eq_nil_iff _ _ _).mp hfirst
  have hg0 := GetAssignment_of_absent habs
  have hg1 : GetAssignment (inserted payload db v.id) payload.ExperimentID payload.UserID =
      (⟨payload.ExperimentID, payload.UserID, r.VariantKey⟩, true) := by
    rw [← hkey]
    exact GetAssignment_after_insert hc habs hv
  have hlist : ∀ c : Store, c = db ∨ c = inserted payload db v.id →
      ListVariants c payload.ExperimentID = ListVariants db payload.ExperimentID := by
    rintro c (rfl | rfl) <;> rfl
  have hlk : ∀ c : Store, c = db ∨ c = inserted payload db v.id →
      lookupVariantID c payload.ExperimentID r.VariantKey = (v.id, none) := by
    rintro c (rfl | rfl)
    · exact hlook
    · exact hlook
  have hins0 : insertAssignment db payload.UserID payload.ExperimentID v.id =
      (inserted payload db v.id, 1) := insertAssignment_fresh v.id habs
  have hins1 : insertAssignment (inserted payload db v.id) payload.UserID
      payload.ExperimentID v.id = (inserted payload db v.id, 0) :=
    insertAssignment_conflict v.id
      ⟨⟨payload.UserID, payload.ExperimentID, v.id⟩, by simp [inserted], rfl, rfl⟩
  have hnonempty : (ListVariants db payload.ExperimentID).length ≠ 0 := by
    intro h
    rw [List.length_eq_zero] at h
    rw [h] at hassign
    exact Assign_nil_ne_ok _ _ _ hassign
  cases pc with
  | getAssignment =>
    rcases hcur with rfl | rfl
    · simp [step, hg0, PcOk]
    · simp [step, hg1, PcOk]
  | listVariants =>
    simp only [step, hlist cur hcur, hnonempty, if_false, PcOk]
    exact ⟨hcur, fun h => h, trivial⟩
  | assign variants =>
    simp only [PcOk] at hok
    subst hok
    simp only [step, hassign, PcOk]
    exact ⟨hcur, fun h => h, trivial⟩
  | lookupVariantID variantKey =>
    simp only [PcOk] at hok
    subst hok
    simp only [step, hlk cur hcur, PcOk]
    exact ⟨hcur, fun h => h, trivial, trivial⟩
  | insert variantKey id =>
    simp only [PcOk] at hok
    obtain ⟨rfl, rfl⟩ := hok
    rcases hcur with rfl | rfl
    · simp [step, hins0, PcOk]
    · simp [step, hins1, PcOk]
  | reread =>
    simp only [PcOk] at hok
    subst hok
    simp [step, hg1, PcOk]
  | done resp =>
    simp only [PcOk] at hok
    simp only [step, PcOk]
    exact ⟨hcur, fun h => h, hok⟩

/-- A request that is in order stays so when the row gets stored. -/
theorem PcOk_mono {db : Store} {payload : assignRequest} {key variantID : String}
    {cur next : Store} (hnext : cur = inserted payload db variantID →
      next = inserted payload db variantID) {pc : Pc}
    (hok : PcOk payload db key variantID cur pc) :
    PcOk payload db key variantID next pc := by
  cases pc with
  | getAssignment => trivial
  | listVariants => trivial
  | assign variants => exact hok
  | lookupVariantID variantKey => exact hok
  | insert variantKey id => exact hok
  | reread => exact hnext hok
  | done resp => exact ⟨hok.1, hnext hok.2⟩

/-- Every interleaving keeps the invariant. -/
theorem run_inv {db : Store} {payload : assignRequest} {r : Result} {v : VariantRow}
    (hc : db.Constraints)
    (hfirst : rowsFor db payload.ExperimentID payload.UserID = [])
    (hassign : Assign payload.ExperimentID payload.UserID
      (ListVariants db payload.ExperimentID) = (r, none))
    (hv : v ∈ db.Variant) (hkey : v.key = r.VariantKey)
    (hlook : lookupVariantID db payload.ExperimentID r.VariantKey = (v.id, none))
    (schedule : List Nat) (st : System) (hinv : Inv payload db r.VariantKey v.id st) :
    Inv payload db r.VariantKey v.id (run payload schedule st) ∧
      (run payload schedule st).2.length = st.2.length := by
  induction schedule generalizing st with
  | nil => exact ⟨hinv, rfl⟩
  | cons i rest ih =>
    have hstep : Inv payload db r.VariantKey v.id (stepAt payload st i) ∧
        (stepAt payload st i).2.length = st.2.length := by
      unfold stepAt
      cases hpc : st.2[i]? with
      | none => exact ⟨hinv, rfl⟩
      | some pc =>
        have hmem : pc ∈ st.2 := List.getElem?_mem hpc
        obtain ⟨h1, h2, h3⟩ := step_ok hc hfirst hassign hv hkey hlook hinv.1 (hinv.2 pc hmem)
        refine ⟨⟨h1, ?_⟩, by simp⟩
        intro q hq
        rcases List.mem_or_eq_of_mem_set hq with hq | rfl
        · exact PcOk_mono h2 (hinv.2 q hq)
        · exact h3
    obtain ⟨h1, h2⟩ := ih (stepAt payload st i) hstep.1
    exact ⟨h1, by rw [show run payload (i :: rest) st = run payload rest (stepAt payload st i)
      from rfl, h2, hstep.2]⟩

/-- A step moves a request forward, up to its response. -/
theorem step_rank (payload : assignRequest) (db : Store) (pc : Pc) :
    min 6 (pc.rank + 1) ≤ (step payload db pc).2.rank := by
  cases pc with
  | getAssignment =>
    simp only [step]
    split <;> simp [Pc.rank]
  | listVariants =>
    simp only [step]
    split <;> simp [Pc.rank]
  | assign variants =>
    simp only [step]
    split <;> simp [Pc.rank]
  | lookupVariantID variantKey =>
    simp only [step]
    split <;> simp [Pc.rank]
  | insert variantKey id =>
    simp only [step]
    split <;> simp [Pc.rank]
  | reread =>
    simp only [step]
    split <;> simp [Pc.rank]
  | done resp => simp [step, Pc.rank]

theorem isDone_of_rank {pc : Pc} (h : 6 ≤ pc.rank) : pc.isDone = true := by
  cases pc with
  | done resp => rfl
  | _ => simp [Pc.rank] at h

theorem stepAt_length (payload : assignRequest) (st : System) (i : Nat) :
    (stepAt payload st i).2.length = st.2.length := by
  unfold stepAt
  split <;> simp

theorem run_length (payload : assignRequest) (schedule : List Nat) (st : System) :
    (run payload schedule st).2.length = st.2.length := by
  induction schedule generalizing st with
  | nil => rfl
  | cons i rest ih =>
    rw [show run payload (i :: rest) st = run payload rest (stepAt payload st i) from rfl, ih,
      stepAt_length]

/-- In any interleaving, on any store, a request is at least as far as the
number of steps it was given, up to its response. -/
theorem run_rank (payload : assignRequest) (schedule : List Nat) (st : System) (i : Nat)
    (pc : Pc) (hpc : st.2[i]? = some pc) :
    ∃ pc2, (run payload schedule st).2[i]? = some pc2 ∧
      min 6 (pc.rank + schedule.count i) ≤ pc2.rank := by
  induction schedule generalizing st pc with
  | nil => exact ⟨pc, hpc, by simp⟩
  | cons j rest ih =>
    rw [show run payload (j :: rest) st = run payload rest (stepAt payload st j) from rfl]
    by_cases hji : j = i
    · subst hji
      have hlt : j < st.2.length := by
        by_contra hge
        rw [List.getElem?_eq_none (not_lt.mp hge)] at hpc
        simp at hpc
      have hnext : (stepAt payload st j).2[j]? = some (step payload st.1 pc).2 := by
        unfold stepAt
        rw [hpc]
        simp [hlt]
      obtain ⟨pc2, h1, h2⟩ := ih _ _ hnext
      refine ⟨pc2, h1, ?_⟩
      have h3 := step_rank payload st.1 pc
      rw [List.count_cons_self]
      omega
    · have hnext : (stepAt payload st j).2[i]? = some pc := by
        unfold stepAt
        split
        · exact hpc
        · simp only [List.getElem?_set_ne hji]
          exact hpc
      obtain ⟨pc2, h1, h2⟩ := ih _ _ hnext
      refine ⟨pc2, h1, ?_⟩
      rw [List.count_cons_of_ne (Ne.symm hji)]
      exact h2

/-- Every request that was given six steps has written its response: an
interleaving that gives six steps to each of the `N` requests completes
them all. -/
theorem run_completes (payload : assignRequest) (schedule : List Nat) (db : Store) (N : Nat)
    (hfair : ∀ i, i < N → 6 ≤ schedule.count i) :
    ∀ pc ∈ (run payload schedule (db, List.replicate N Pc.getAssignment)).2,
      pc.isDone = true := by
  intro pc hpc
  obtain ⟨i, hi⟩ := List.mem_iff_getElem?.mp hpc
  have hlen := run_length payload schedule (db, List.replicate N Pc.getAssignment)
  have hiN : i < N := by
    by_contra hge
    rw [List.getElem?_eq_none (by rw [hlen]; simpa using hge)] at hi
    simp at hi
  have h0 : (db, List.replicate N Pc.getAssignment).2[i]? = some Pc.getAssignment := by
    simp [hiN]
  obtain ⟨pc2, h1, h2⟩ := run_rank payload schedule _ i _ h0
  rw [hi] at h1
  simp only [Option.some.injEq] at h1
  subst h1
  have := hfair i hiN
  apply isDone_of_rank
  have h0r : Pc.getAssignment.rank = 0 := rfl
  rw [h0r] at h2
  omega

/-- C5, as the code has it. Take `N >= 1` first requests for one pair on a
store (satisfying the constraints of the schema) without assignment for the
pair, for which a request alone is answered 200. Then in every interleaving
of their atomic store statements (those of `PersistAssignment` taken one by
one) that completes them all, every request is answered 200 with the same
body, carrying the key a request alone gets; afterwards exactly one
`Assignment` row exists for the pair and the variants are unchanged. -/
theorem concurrent_first_requests_agree (db : Store) (payload : assignRequest) (N : Nat)
    (schedule : List Nat) (hc : db.Constraints) (hN : 1 ≤ N)
    (hfirst : rowsFor db payload.ExperimentID payload.UserID = [])
    (hsolo : (handleAssign db ⟨"POST", some payload⟩).2.1.status = 200)
    (hdone : ∀ pc ∈ (run payload schedule (db, List.replicate N Pc.getAssignment)).2,
      pc.isDone = true) :
    ∃ variantKey,
      (handleAssign db ⟨"POST", some payload⟩).2.1 =
        ⟨200, .json ⟨payload.ExperimentID, payload.UserID, variantKey⟩⟩ ∧
      (run payload schedule (db, List.replicate N Pc.getAssignment)).2 =
        List.replicate N
          (Pc.done ⟨200, .json ⟨payload.ExperimentID, payload.UserID, variantKey⟩⟩) ∧
      (rowsFor (run payload schedule (db, List.replicate N Pc.getAssignment)).1
        payload.ExperimentID payload.UserID).length = 1 ∧
      (run payload schedule (db, List.replicate N Pc.getAssignment)).1.Variant =
        db.Variant := by
  obtain ⟨r, v, hassign, hv, hkey, hlook⟩ := solo_ok hfirst hsolo
  have hinit : ∀ n, Inv payload db r.VariantKey v.id (db, List.replicate n Pc.getAssignment) := by
    intro n
    refine ⟨Or.inl rfl, ?_⟩
    intro pc hpc
    rw [List.mem_replicate] at hpc
    rw [hpc.2]
    trivial
  obtain ⟨hI, hlen⟩ := run_inv hc hfirst hassign hv hkey hlook schedule _ (hinit N)
  have hall : ∀ pc ∈ (run payload schedule (db, List.replicate N Pc.getAssignment)).2,
      pc = Pc.done ⟨200, .json ⟨payload.ExperimentID, payload.UserID, r.VariantKey⟩⟩ ∧
      (run payload schedule (db, List.replicate N Pc.getAssignment)).1 =
        inserted payload db v.id := by
    intro pc hpc
    have hd := hdone pc hpc
    have hok := hI.2 pc hpc
    cases pc with
    | done resp =>
      simp only [PcOk] at hok
      exact ⟨by rw [hok.1], hok.2⟩
    | _ => simp [Pc.isDone] at hd
  have hstore : (run payload schedule (db, List.replicate N Pc.getAssignment)).1 =
      inserted payload db v.id := by
    have hpos : 0 < (run payload schedule (db, List.replicate N Pc.getAssignment)).2.length := by
      rw [hlen]
      simpa using hN
    exact (hall _ (List.getElem_mem hpos)).2
  refine ⟨r.VariantKey, ?_, ?_, ?_, ?_⟩
  · have hsoloRun := run_alone_eq_handleAssign db payload
    obtain ⟨hI1, _⟩ := run_inv hc hfirst hassign hv hkey hlook [0, 0, 0, 0, 0, 0] _ (hinit 1)
    have hmem : Pc.done (handleAssign db ⟨"POST", some payload⟩).2.1 ∈
        (run payload [0, 0, 0, 0, 0, 0] (db, List.replicate 1 Pc.getAssignment)).2 := by
      rw [show List.replicate 1 Pc.getAssignment = [Pc.getAssignment] from rfl, hsoloRun]
      simp
    have hok := hI1.2 _ hmem
    simp only [PcOk] at hok
    exact hok.1
  · rw [List.eq_replicate_iff]
    refine ⟨by rw [hlen]; simp, fun pc hpc => (hall pc hpc).1⟩
  · rw [hstore, rowsFor_inserted v.id hfirst]
    rfl
  · rw [hstore]
    rfl

/-- C5 on three requests taking turns: all are answered with key `A`, and
one row is stored. -/
theorem concurrent_first_requests_agree_witness :
    (run ⟨"exp1", "u1"⟩ [0, 1, 2, 0, 1, 2, 0, 1, 2, 0, 1, 2, 1, 0, 2, 0, 1, 2]
        (⟨[⟨"v1", "exp1", "A", 50, 1⟩, ⟨"v2", "exp1", "B", 50, 2⟩], [⟨"u0", "exp1", "v2"⟩]⟩,
          List.replicate 3 Pc.getAssignment)).2 =
      List.replicate 3 (Pc.done ⟨200, .json ⟨"exp1", "u1", "A"⟩⟩) ∧
    (rowsFor (run ⟨"exp1", "u1"⟩ [0, 1, 2, 0, 1, 2, 0, 1, 2, 0, 1, 2, 1, 0, 2, 0, 1, 2]
        (⟨[⟨"v1", "exp1", "A", 50, 1⟩, ⟨"v2", "exp1", "B", 50, 2⟩], [⟨"u0", "exp1", "v2"⟩]⟩,
          List.replicate 3 Pc.getAssignment)).1 "exp1" "u1").length = 1 := by
  obtain ⟨k, h1, h2, h3, _⟩ := concurrent_first_requests_agree
    ⟨[⟨"v1", "exp1", "A", 50, 1⟩, ⟨"v2", "exp1", "B", 50, 2⟩], [⟨"u0", "exp1", "v2"⟩]⟩
    ⟨"exp1", "u1"⟩ 3 [0, 1, 2, 0, 1, 2, 0, 1, 2, 0, 1, 2, 1, 0, 2, 0, 1, 2]
    (by decide) (by decide) (by decide) (by decide) (by decide)
  have hk : k = "A" := by
    have h4 : (handleAssign
        ⟨[⟨"v1", "exp1", "A", 50, 1⟩, ⟨"v2", "exp1", "B", 50, 2⟩], [⟨"u0", "exp1", "v2"⟩]⟩
        ⟨"POST", some ⟨"exp1", "u1"⟩⟩).2.1 = ⟨200, .json ⟨"exp1", "u1", "A"⟩⟩ := by decide
    rw [h4] at h1
    simp only [Response.mk.injEq, Body.json.injEq, Result.mk.injEq, true_and] at h1
    exact h1.symm
  subst hk
  exact ⟨h2, h3⟩

/-- C5, as stated, fails: a single first request (`N = 1`) on a store whose
only variant of the experiment has weight `0` (a non-empty configuration,
no assignment for the pair) is answered 422 by every interleaving, here the
only one, and no `Assignment` row exists afterwards. -/
theorem concurrent_first_requests_no_row :
    rowsFor ⟨[⟨"v1", "exp1", "A", 0, 1⟩], []⟩ "exp1" "u1" = [] ∧
    ListVariants ⟨[⟨"v1", "exp1", "A", 0, 1⟩], []⟩ "exp1" = [⟨"A", 0⟩] ∧
    run ⟨"exp1", "u1"⟩ [0, 0, 0]
        (⟨[⟨"v1", "exp1", "A", 0, 1⟩], []⟩, List.replicate 1 Pc.getAssignment) =
      (⟨[⟨"v1", "exp1", "A", 0, 1⟩], []⟩,
        [Pc.done ⟨422, .text "assignments: at least one variant is required"⟩]) ∧
    (rowsFor (run ⟨"exp1", "u1"⟩ [0, 0, 0]
        (⟨[⟨"v1", "exp1", "A", 0, 1⟩], []⟩, List.replicate 1 Pc.getAssignment)).1
      "exp1" "u1").length = 0 := by
  decide

end Httpserver
